import Mathlib

/-
Verification of the storage-yard simulator: a shallow embedding of the
Store data structure (store.py), the expert Strategy scheduler (expert.py)
and the log-replay verifier (check_and_show in store.py), together with
proofs and refutations of the documented behavioral properties.

Conventions of the embedding:
  - Python code that can raise (TypeError, AssertionError, KeyError,
    IndexError, ValueError) is modeled with Option: none means the Python
    code raises, some x means it returns x normally.
  - Machine integers are Int (Python ints are unbounded, so no wrap-around
    modeling is needed); heights, sizes and column indices are Nat,
    matching their use as non-negative list indices in the source.
  - The float score in pile_score is modeled in Rat: the Python values are
    exact quarter-integers, and the only threshold comparison (score less
    or equal 0.3, with double rounding of 0.3) agrees with the rational
    comparison against 3/10 on all quarter-integers.
-/

/-- TimeRange from store.py (lines 21-24): half-open interval. The field
called end in the source is named stop here because end is a Lean keyword. -/
structure TimeRange where
  start : Int
  stop : Int
deriving DecidableEq, Repr

/-- Container from store.py (lines 27-33). -/
structure Container where
  identifier : Int
  size : Nat
  value : Int
  arrival : TimeRange
  delivery : TimeRange
deriving DecidableEq, Repr

/-- A location as stored in the Store map: (height, column), exactly the
pair built at store.py line 145. -/
def YLoc : Type := Nat × Nat
deriving instance DecidableEq, Repr for YLoc

/-- Lookup in the identifier-to-location dictionary, modeling Python dict
get: first matching key (keys are kept unique by mapInsert / mapPop). -/
def mapLookup (m : List (Int × YLoc)) (k : Int) : Option YLoc :=
  match m with
  | [] => none
  | (k1, v) :: rest => if k1 = k then some v else mapLookup rest k

/-- Dictionary store, modeling Python dict assignment: the new binding
shadows and removes any previous binding of the same key. -/
def mapInsert (m : List (Int × YLoc)) (k : Int) (v : YLoc) : List (Int × YLoc) :=
  (k, v) :: m.filter (fun kv => kv.1 != k)

/-- Dictionary pop, modeling dict.pop(k): removes the binding of k. -/
def mapPop (m : List (Int × YLoc)) (k : Int) : List (Int × YLoc) :=
  m.filter (fun kv => kv.1 != k)

/-- The Store state (store.py, __init__, lines 52-69): width, the per-column
stacks (bottom to top), the cash accumulator, the insertion-ordered list of
stored containers, and the identifier-to-location dictionary. -/
structure Store where
  width : Nat
  storage : List (List Container)
  cash : Int
  containers : List Container
  map : List (Int × YLoc)
deriving DecidableEq, Repr

/-- A fresh Store of the given width (store.py lines 52-69). -/
def Store.init (w : Nat) : Store :=
  { width := w, storage := List.replicate w [], cash := 0, containers := [], map := [] }

/-- Length of the stack at column p, with no validity check: used where the
source reads len of an already-indexed column. -/
def colHeight (s : Store) (p : Nat) : Nat :=
  (s.storage.getD p []).length

/-- Store.height_column (store.py lines 96-106): asserts valid_position(p),
that is p less than width, then returns the column length. -/
def Store.height_column (s : Store) (p : Nat) : Option Nat :=
  if p < s.width then some (colHeight s p) else none

/-- Store.valid_position (store.py lines 115-120): p less than width (the
source has no lower bound check; column indices are Nat here). -/
def Store.valid_position (s : Store) (p : Nat) : Bool :=
  decide (p < s.width)

/-- Store.add_cash (store.py lines 122-129). -/
def Store.add_cash (s : Store) (amount : Int) : Store :=
  { s with cash := s.cash + amount }

/-- Store.empty (store.py lines 215-222): len of storage at p compared to 0;
indexing raises when p is out of range of the storage list. -/
def Store.empty (s : Store) (p : Nat) : Option Bool :=
  if p < s.storage.length then some (decide ((s.storage.getD p []) = [])) else none

/-- Store.top_container (store.py lines 224-233). -/
def Store.top_container (s : Store) (p : Nat) : Option (Option Container) :=
  (s.empty p).map (fun e => if e then none else (s.storage.getD p []).getLast?)

/-- Store.location (store.py lines 236-245): dictionary get by identifier. -/
def Store.location (s : Store) (c : Container) : Option YLoc :=
  mapLookup s.map c.identifier

/-- The scan loop of Store.can_add (store.py lines 258-261): walks the
columns of the footprint in order; each height_column call asserts the
column index is below width (none models that assertion failing), and a
height differing from l returns false early. -/
def canAddLoop (s : Store) (l : Nat) : List Nat → Option Bool
  | [] => some true
  | i :: is =>
    if i < s.width then
      if colHeight s i ≠ l then some false else canAddLoop s l is
    else none

/-- Store.can_add (store.py lines 247-262): asserts valid_position(p), reads
l as the height of column p, then scans columns p to p+size-1. Note the
source never checks p + size against width; when the footprint overruns the
store the loop itself hits the height_column assertion and raises. -/
def Store.can_add (s : Store) (c : Container) (p : Nat) : Option Bool :=
  if p < s.width then canAddLoop s (colHeight s p) (List.range' p c.size) else none

/-- Store.can_remove (store.py lines 264-277): the source computes
loc[0] + 1 before testing loc is not None, so an absent container raises
TypeError (none). For a present container it compares the recorded height
plus one with the current height of the single column loc[1] only. -/
def Store.can_remove (s : Store) (c : Container) : Option Bool :=
  match s.location c with
  | none => none
  | some loc => (s.height_column loc.2).map (fun h => decide (loc.1 + 1 = h))

/-- The append loop of Store.add (store.py lines 147-148): pushes the
container on each column of the footprint. -/
def addAll (stor : List (List Container)) (c : Container) : List Nat → List (List Container)
  | [] => stor
  | i :: is => addAll (stor.set i ((stor.getD i []) ++ [c])) c is

/-- Store.add (store.py lines 131-148): asserts can_add (propagating its
possible assertion failure), records the location (current height of p,
then p), appends to the container list, and pushes onto every footprint
column. -/
def Store.add (s : Store) (c : Container) (p : Nat) : Option Store := do
  let b ← s.can_add c p
  if b then
    some { s with
      map := mapInsert s.map c.identifier (colHeight s p, p),
      containers := s.containers ++ [c],
      storage := addAll s.storage c (List.range' p c.size) }
  else none

/-- One del storage[i][h] step of Store.remove (store.py line 166): raises
IndexError when the column index or the stack index is out of range. -/
def delAt (stor : List (List Container)) (i : Nat) (h : Nat) : Option (List (List Container)) :=
  if i < stor.length then
    if h < (stor.getD i []).length then
      some (stor.set i ((stor.getD i []).eraseIdx h))
    else none
  else none

/-- Store.remove (store.py lines 150-166): asserts the identifier is in the
map and can_remove holds, removes the map entry and the (structurally
equal) container from the container list, and deletes the stack entry at
the recorded height from every footprint column. -/
def Store.remove (s : Store) (c : Container) : Option Store :=
  match mapLookup s.map c.identifier with
  | none => none
  | some loc =>
    match s.can_remove c with
    | some true =>
      if c ∈ s.containers then
        match (List.range' loc.2 c.size).foldlM (fun stor i => delAt stor i loc.1) s.storage with
        | some stor1 =>
          some { s with
            map := mapPop s.map c.identifier,
            containers := s.containers.erase c,
            storage := stor1 }
        | none => none
      else none
    | _ => none

/-- Store.can_move (store.py lines 169-179): can_remove and can_add, with
Python short-circuit evaluation (can_add is not evaluated when can_remove
is false), both on the current state. -/
def Store.can_move (s : Store) (c : Container) (p : Nat) : Option Bool := do
  let r ← s.can_remove c
  if r then s.can_add c p else some false

/-- Store.move (store.py lines 181-195): if can_move then remove, add (whose
internal can_add assertion is re-evaluated on the post-removal state and can
raise), then re-store the location of the container in the map (a no-op
rewrite of the binding the add just made); otherwise silently do nothing. -/
def Store.move (s : Store) (c : Container) (p : Nat) : Option Store := do
  let b ← s.can_move c p
  if b then do
    let s1 ← s.remove c
    let s2 ← s1.add c p
    some { s2 with map :=
      match mapLookup s2.map c.identifier with
      | some loc => mapInsert s2.map c.identifier loc
      | none => s2.map }
  else some s

/-- Store.removable_containers (store.py lines 204-213): filter the stored
containers by can_remove, which can itself raise. -/
def Store.removable_containers (s : Store) : Option (List Container) :=
  s.containers.foldlM (fun acc c => (s.can_remove c).map (fun b => if b then acc ++ [c] else acc)) []

example : (Store.init 2).can_add ⟨1, 1, 5, ⟨0, 3⟩, ⟨0, 3⟩⟩ 0 = some true := by decide
example : (Store.init 2).can_add ⟨1, 2, 5, ⟨0, 3⟩, ⟨0, 3⟩⟩ 1 = none := by decide
example : (Store.init 2).can_remove ⟨1, 1, 5, ⟨0, 3⟩, ⟨0, 3⟩⟩ = none := by decide

/-- One record of the event log (store.py Logger, lines 310-330; the START
record is represented by the width argument of the replay, not as an
event). Each record carries the producer clock value at which it was
written. -/
inductive Event where
  | add : Int → Int → Nat → Event
  | remove : Int → Int → Event
  | move : Int → Int → Nat → Event
  | cash : Int → Int → Event
deriving DecidableEq, Repr

/-- deliverability test shared by expert.py valid_container_h (lines
213-221, used by money_from_pile) and the REMOVE branch of check_and_show
(store.py line 392): delivery.start less or equal t and t strictly below
delivery.end. -/
def deliverableAt (c : Container) (t : Int) : Bool :=
  decide (c.delivery.start ≤ t ∧ t < c.delivery.stop)

/-- The Strategy state (expert.py __init__, lines 39-51): the owned Store,
the clock, and the event log written through the Logger. The sales field is
ghost instrumentation added by the embedding: it records (container, clock)
for every sell_container call and is read by no operation; it exists only
to state properties about sales. -/
structure Strategy where
  store : Store
  time : Int
  log : List Event
  sales : List (Container × Int)
deriving DecidableEq, Repr

/-- A fresh Strategy of the given width (expert.py lines 39-51); the Logger
START line is carried by the width, and the log of further events starts
empty. -/
def Strategy.init (w : Nat) : Strategy :=
  { store := Store.init w, time := 0, log := [], sales := [] }

/-- Strategy.expired_container (expert.py lines 71-78). -/
def Strategy.expired_container (st : Strategy) (c : Container) : Bool :=
  decide (st.time ≥ c.delivery.stop)

/-- Strategy.valid_container (expert.py lines 53-60). -/
def Strategy.valid_container (st : Strategy) (c : Container) : Bool :=
  decide (st.time ≥ c.delivery.start) && !(st.expired_container c)

/-- Strategy.valid_position (expert.py lines 62-69). -/
def Strategy.valid_position (st : Strategy) (p : Nat) : Bool :=
  decide (p < st.store.width)

/-- Strategy.height_column (expert.py lines 176-186): asserts
valid_position(p) then reads the column length. -/
def Strategy.height_column (st : Strategy) (p : Nat) : Option Nat :=
  if p < st.store.width then some (colHeight st.store p) else none

/-- Strategy.empty_store (expert.py lines 142-147). -/
def Strategy.empty_store (st : Strategy) : Bool :=
  decide (st.store.containers.length = 0)

/-- Strategy.update_time (expert.py lines 168-174) is inlined as time + 1
in the four mutating primitives below. Strategy.stack_position (expert.py
lines 80-99): asserts n is 1 or 2; pile 1 of size k starts at k*(k-1) and
pile 2 at k*k. -/
def stack_position (n : Nat) (size : Nat) : Option Nat :=
  if 1 ≤ n ∧ n ≤ 2 then some (if n = 1 then size * (size - 1) else size * size) else none

/-- Strategy.lose_container (expert.py lines 101-113): asserts can_remove,
removes without crediting, logs REMOVE at the current clock, then advances
the clock. -/
def Strategy.lose_container (st : Strategy) (c : Container) : Option Strategy := do
  let b ← st.store.can_remove c
  if b then do
    let s1 ← st.store.remove c
    some { st with store := s1, log := st.log ++ [Event.remove st.time c.identifier],
                   time := st.time + 1 }
  else none

/-- Strategy.sell_container (expert.py lines 115-128): asserts can_remove,
credits the value, removes, logs REMOVE at the current clock, advances the
clock. The embedding also appends the sale to the ghost sales list. -/
def Strategy.sell_container (st : Strategy) (c : Container) : Option Strategy := do
  let b ← st.store.can_remove c
  if b then do
    let s1 ← (st.store.add_cash c.value).remove c
    some { st with store := s1, log := st.log ++ [Event.remove st.time c.identifier],
                   time := st.time + 1, sales := st.sales ++ [(c, st.time)] }
  else none

/-- Strategy.move_container (expert.py lines 130-140): asserts can_move,
moves, logs MOVE at the current clock, advances the clock. -/
def Strategy.move_container (st : Strategy) (c : Container) (p : Nat) : Option Strategy := do
  let b ← st.store.can_move c p
  if b then do
    let s1 ← st.store.move c p
    some { st with store := s1, log := st.log ++ [Event.move st.time c.identifier p],
                   time := st.time + 1 }
  else none

/-- Strategy.add_container (expert.py lines 196-211): asserts can_add, adds,
logs ADD at the current clock, advances the clock. -/
def Strategy.add_container (st : Strategy) (c : Container) (p : Nat) : Option Strategy := do
  let b ← st.store.can_add c p
  if b then do
    let s1 ← st.store.add c p
    some { st with store := s1, log := st.log ++ [Event.add st.time c.identifier p],
                   time := st.time + 1 }
  else none

/-- Strategy.evaluate_container (expert.py lines 149-166): when the
container can be added at p2 and removed (short-circuit), lose it if
expired, sell it if valid, otherwise move it to p2; else do nothing. -/
def Strategy.evaluate_container (st : Strategy) (c : Container) (p2 : Nat) : Option Strategy := do
  let a ← st.store.can_add c p2
  if a then do
    let r ← st.store.can_remove c
    if r then
      if st.expired_container c then st.lose_container c
      else if st.valid_container c then st.sell_container c
      else st.move_container c p2
    else some st
  else some st

/-- Strategy.adjacent_stack (expert.py lines 223-233): dictionary access by
identifier (KeyError when absent); returns the other designated pile of the
container size class. -/
def Strategy.adjacent_stack (st : Strategy) (c : Container) : Option Nat :=
  match mapLookup st.store.map c.identifier with
  | none => none
  | some loc =>
    some (if loc.2 = c.size * c.size then c.size * (c.size - 1) else c.size * c.size)

/-- Strategy.least_full_pile (expert.py lines 366-376): the designated pile
of the container size class with the smaller height, preferring pile 1 on
ties. -/
def Strategy.least_full_pile (st : Strategy) (c : Container) : Option Nat := do
  let p1 ← stack_position 1 c.size
  let p2 ← stack_position 2 c.size
  let h1 ← st.height_column p1
  let h2 ← st.height_column p2
  if h1 > h2 then some p2 else some p1

/-- Strategy.money_from_pile (expert.py lines 258-278): asserts depth
non-negative and p valid; clamps the scan length to the column height only
when depth exceeds it; scans storage[p][d-1-i] for i from 0, which is the
bottom d entries of the column scanned downward, summing values deliverable
at time + i; returns that sum together with depth minus the column height,
an Int that is negative whenever the column is taller than depth. -/
def Strategy.money_from_pile (st : Strategy) (p : Nat) (depth : Int) : Option (Int × Int) :=
  if 0 ≤ depth ∧ p < st.store.width then
    let h := colHeight st.store p
    let rem : Int := depth - h
    let d1 : Nat := if 0 < rem then h else depth.toNat
    let scan := ((st.store.storage.getD p []).take d1).reverse
    some (((scan.enum.map
      (fun x => if deliverableAt x.2 (st.time + x.1) then x.2.value else 0)).sum), rem)
  else none

/-- Strategy.containers_from_pile (expert.py lines 235-256): same clamped
window as money_from_pile, counting entries that are currently valid or
already expired. -/
def Strategy.containers_from_pile (st : Strategy) (p : Nat) (depth : Int) : Option Nat :=
  if 0 ≤ depth ∧ p < st.store.width then
    let h := colHeight st.store p
    let rem : Int := depth - h
    let d1 : Nat := if 0 < rem then h else depth.toNat
    let scan := ((st.store.storage.getD p []).take d1).reverse
    some ((scan.filter (fun c => st.valid_container c || st.expired_container c)).length)
  else none

/-- Strategy.pile_score (expert.py lines 292-307): weighted average of the
money potential (weight 3) and the deliverable-or-expired count (weight 1),
paired with the remaining-time component of money_from_pile. The Python
float quotient is represented exactly in Rat. -/
def Strategy.pile_score (st : Strategy) (p : Nat) (depth : Int) : Option (Rat × Int) := do
  let money ← st.money_from_pile p depth
  let cnt ← st.containers_from_pile p depth
  some ((3 * (money.1 : Rat) + 1 * (cnt : Rat)) / (3 + 1), money.2)

/-- Strategy.sort_by_cost (expert.py lines 407-422): partitions into
currently valid (sellable) containers and the rest, preserving input order
in both parts. The source builds sorted(sell, key=by_value) but discards
the result, so the sell part is returned unsorted, followed by the rest. -/
def Strategy.sort_by_cost (st : Strategy) (l : List Container) : List Container :=
  let parts := l.partition (fun x => st.valid_container x)
  parts.1 ++ parts.2

/-- The while loop of Strategy.treat_removables (expert.py lines 448-472):
walks the pre-computed candidate list while the incoming container delivery
window is open (and, in the before-add variant, while the candidate is
strictly more valuable than the incoming container); loses expired
candidates, sells valid ones, skips the rest. The guard is re-evaluated
against the advancing clock. -/
def Strategy.treatLoop (c : Container) (before : Bool) :
    List Container → Strategy → Option Strategy
  | [], st => some st
  | r :: rest, st =>
    if c.delivery.stop > st.time ∧ (before = true → c.value < r.value) then
      (if st.expired_container r then st.lose_container r
       else if st.valid_container r then st.sell_container r
       else some st).bind
        (fun st1 => Strategy.treatLoop c before rest st1)
    else some st

/-- Strategy.treat_removables (expert.py lines 448-472): candidate list is
sort_by_cost of the currently removable containers, computed once before
the loop. -/
def Strategy.treat_removables (st : Strategy) (c : Container) (before : Bool) :
    Option Strategy := do
  let rm ← st.store.removable_containers
  Strategy.treatLoop c before (st.sort_by_cost rm) st

/-- The while loop of Strategy.dig_pile (expert.py lines 322-325): while
depth is positive and the pile is non-empty, evaluate the top container of
the pile against its alternate designated pile; the Nat argument counts the
remaining loop iterations (the Python depth counter, positive on entry). -/
def Strategy.digLoop (p : Nat) : Nat → Strategy → Option Strategy
  | 0, st => some st
  | n + 1, st => do
    let e ← st.store.empty p
    if e then some st
    else
      match (st.store.storage.getD p []).getLast? with
      | some c => do
        let p2 ← st.adjacent_stack c
        let st1 ← st.evaluate_container c p2
        Strategy.digLoop p n st1
      | none => none

/-- Strategy.dig_pile (expert.py lines 310-325): asserts depth non-negative
and p valid, then runs the loop. -/
def Strategy.dig_pile (st : Strategy) (p : Nat) (depth : Int) : Option Strategy :=
  if 0 ≤ depth ∧ p < st.store.width then Strategy.digLoop p depth.toNat st else none

/-- The while loop of Strategy.equilibrate_piles (expert.py lines 439-443):
while time remains and the big pile is at least as tall as the small one,
move the top of the big pile onto the small pile (skipping the move when
the big pile is empty) and consume one time unit; returns the state and the
remaining time when the height condition fails. -/
def Strategy.eqLoop (big small : Nat) : Nat → Strategy → Option (Strategy × Nat)
  | 0, st => some (st, 0)
  | n + 1, st => do
    let hb ← st.height_column big
    let hs ← st.height_column small
    if hb ≥ hs then
      ((st.store.empty big).bind (fun e =>
        if e then some st
        else
          match (st.store.storage.getD big []).getLast? with
          | some c => st.move_container c small
          | none => none)).bind
        (fun st1 => Strategy.eqLoop big small n st1)
    else some (st, n + 1)

/-- Strategy.equilibrate_piles (expert.py lines 424-446): asserts the time
budget non-negative, runs the loop, then forces the remaining time to 0
when the store has become empty. -/
def Strategy.equilibrate_piles (st : Strategy) (rem : Int) (big small : Nat) :
    Option (Strategy × Int) :=
  if 0 ≤ rem then
    (Strategy.eqLoop big small rem.toNat st).map
      (fun x => (x.1, if x.1.empty_store then 0 else (x.2 : Int)))
  else none

/-- Strategy.better_pile (expert.py lines 327-349): asserts validity of pos
and depth, scores pos, and keeps the newcomer when it scores strictly
higher or when the incumbent best pile is empty (short-circuit: the
emptiness test, which can raise on an invalid incumbent position, only runs
when the score comparison fails). -/
def Strategy.better_pile (st : Strategy) (pos : Nat) (best : Nat × Rat × Int) (depth : Int) :
    Option (Nat × Rat × Int) := do
  if pos < st.store.width ∧ 0 ≤ depth then
    let sc ← st.pile_score pos depth
    if best.2.1 < sc.1 then some (pos, sc.1, sc.2)
    else do
      let e ← st.store.empty best.1
      if e then some (pos, sc.1, sc.2) else some best
  else none

/-- Strategy.best_pile (expert.py lines 351-364): asserts depth
non-negative; folds better_pile over the designated piles i*i then i*(i-1)
for i from 1 to 4, starting from the sentinel (0, -1, 0). -/
def Strategy.best_pile (st : Strategy) (depth : Int) : Option (Nat × Rat × Int) :=
  if 0 ≤ depth then
    (List.range' 1 4).foldlM
      (fun best i => do
        let b1 ← st.better_pile (i * i) best depth
        st.better_pile (i * (i - 1)) b1 depth)
      ((0 : Nat), (-1 : Rat), (0 : Int))
  else none

/-- Strategy.least_equilibrated_pile (expert.py lines 378-397): over size
classes 1 to 4, find the designated-pile pair with the largest absolute
height difference, ordered taller first; the fold state is (best difference
so far, (taller, smaller)), started at difference -1 so the first pair
always replaces the initial sentinel. -/
def Strategy.least_equilibrated_pile (st : Strategy) : Option (Nat × Nat) := do
  let r ← (List.range' 1 4).foldlM
    (fun (acc : Int × (Nat × Nat)) i => do
      let pos1 ← stack_position 1 i
      let pos2 ← stack_position 2 i
      let h1 ← st.height_column pos1
      let h2 ← st.height_column pos2
      let d : Int := (h2 : Int) - (h1 : Int)
      if acc.1 < |d| then
        if d > 0 then some (|d|, (pos2, pos1)) else some (|d|, (pos1, pos2))
      else some acc)
    ((-1 : Int), ((0 : Nat), (0 : Nat)))
  some r.2

/-- The intake step of Strategy.exec (expert.py lines 484-486): compute the
least full designated pile; place the container there when can_add holds,
the container is not expired, and its delivery window is still open (the
source tests the delivery window here, and the non-expired test is the same
condition again). -/
def Strategy.intakeStep (st : Strategy) (c : Container) : Option Strategy := do
  let pos1 ← st.least_full_pile c
  let a ← st.store.can_add c pos1
  if a = true ∧ st.expired_container c = false ∧ c.delivery.stop > st.time then
    st.add_container c pos1
  else some st

/-- The idle-time while loop of Strategy.exec (expert.py lines 489-496):
while time remains and the store is non-empty, either equilibrate (score at
most 3/10, the exact rational agreeing with the Python float threshold 0.3
on the quarter-integer scores) or dig the best pile. The Nat fuel bounds
the number of iterations; exhausting it on a still-running loop is modeled
as divergence (none), so a some result corresponds to a completed run. -/
def Strategy.idleLoop : Nat → Strategy → Int → Option Strategy
  | 0, st, rem => if 0 < rem ∧ st.empty_store = false then none else some st
  | n + 1, st, rem =>
    if 0 < rem ∧ st.empty_store = false then do
      let best ← st.best_pile rem
      if best.2.1 ≤ 3 / 10 then do
        let piles ← st.least_equilibrated_pile
        let x ← st.equilibrate_piles rem piles.1 piles.2
        Strategy.idleLoop n x.1 x.2
      else do
        let st1 ← st.dig_pile best.1 rem
        Strategy.idleLoop n st1 best.2.2
    else some st

/-- Strategy.exec (expert.py lines 474-496): pre-flush, intake, post-flush,
then the idle-time exploration loop on the remaining arrival time. -/
def Strategy.exec (fuel : Nat) (st : Strategy) (c : Container) : Option Strategy := do
  let st1 ← st.treat_removables c true
  let st2 ← st1.intakeStep c
  let st3 ← st2.treat_removables c false
  Strategy.idleLoop fuel st3 (c.arrival.stop - st3.time)

/-- execute_strategy (expert.py lines 509-515): run exec on each container
in input order, starting from a fresh Strategy. -/
def execList (fuel : Nat) : Strategy → List Container → Option Strategy
  | st, [] => some st
  | st, c :: rest => (Strategy.exec fuel st c).bind (fun st1 => execList fuel st1 rest)

/-- Full run of the expert strategy on a container list with a fresh store
of width w. -/
def execAll (fuel : Nat) (w : Nat) (cs : List Container) : Option Strategy :=
  execList fuel (Strategy.init w) cs

/-- One step of the replay verifier check_and_show (store.py lines
373-400): assert the timestamp is non-decreasing, then dispatch on the
record kind; CASH asserts the logged amount equals the replayed cash; ADD
and MOVE look the container up by identifier (KeyError when unknown) and
re-perform the mutation; REMOVE re-performs the removal and credits the
value exactly when the delivery window contains the timestamp. -/
def replayStep (cmap : Int → Option Container) (acc : Store × Int) (e : Event) :
    Option (Store × Int) :=
  match e with
  | Event.cash t v =>
    if t ≥ acc.2 then (if v = acc.1.cash then some (acc.1, t) else none) else none
  | Event.add t id p =>
    if t ≥ acc.2 then
      (cmap id).bind (fun c => (acc.1.add c p).map (fun s => (s, t)))
    else none
  | Event.remove t id =>
    if t ≥ acc.2 then
      (cmap id).bind (fun c => (acc.1.remove c).map
        (fun s => (if deliverableAt c t then s.add_cash c.value else s, t)))
    else none
  | Event.move t id p =>
    if t ≥ acc.2 then
      (cmap id).bind (fun c => (acc.1.move c p).map (fun s => (s, t)))
    else none

/-- Replay of a list of records from a given store and last-timestamp. -/
def replayFrom (cmap : Int → Option Container) : Store × Int → List Event → Option (Store × Int)
  | acc, [] => some acc
  | acc, e :: rest => (replayStep cmap acc e).bind (fun acc1 => replayFrom cmap acc1 rest)

/-- check_and_show (store.py lines 347-403): replay a full log against a
fresh Store of the logged width, with the last-seen timestamp started at 0;
none models an assertion failure (an integrity violation) or a raised
error during replay. -/
def replayList (w : Nat) (cmap : Int → Option Container) (log : List Event) :
    Option (Store × Int) :=
  replayFrom cmap (Store.init w, 0) log

/-- Claim-side predicate (spec section 8, flat-surface and top-only
removal): the container is present and every column of its footprint has
height exactly the recorded height plus one, so nothing sits above it in
any column it spans. -/
def allColumnsTopped (s : Store) (c : Container) : Bool :=
  match mapLookup s.map c.identifier with
  | none => false
  | some loc => decide (∀ i ∈ List.range' loc.2 c.size, colHeight s i = loc.1 + 1)

/-- Claim-side version of pile_score: scan the pile from the top down to
min(depth, column height) positions, sum values deliverable at the scan
offset, count currently sellable or expired entries in that window, weight
money 3 and count 1, and report the remaining depth clipped at zero. -/
def pileScoreClaim (st : Strategy) (p : Nat) (d : Int) : Rat × Int :=
  let col := st.store.storage.getD p []
  let k := min d.toNat col.length
  let scan := col.reverse.take k
  let money : Int := (scan.enum.map
    (fun x => if deliverableAt x.2 (st.time + x.1) then x.2.value else 0)).sum
  let cnt := (scan.filter (fun c => st.valid_container c || st.expired_container c)).length
  ((3 * (money : Rat) + (cnt : Rat)) / 4, max (d - (col.length : Int)) 0)

/-- What pile_score actually computes (the amended description): the same
weighted average taken over the bottom min(depth, column height) entries of
the column scanned downward from the top of that window (this coincides
with a top-down scan only when depth is at least the column height), and a
remaining time equal to depth minus the full column height, unclipped and
negative whenever the column is taller than depth. -/
def pileScoreAmended (st : Strategy) (p : Nat) (d : Int) : Rat × Int :=
  let col := st.store.storage.getD p []
  let k := min d.toNat col.length
  let scan := (col.take k).reverse
  let money : Int := (scan.enum.map
    (fun x => if deliverableAt x.2 (st.time + x.1) then x.2.value else 0)).sum
  let cnt := (scan.filter (fun c => st.valid_container c || st.expired_container c)).length
  ((3 * (money : Rat) + (cnt : Rat)) / 4, d - (col.length : Int))

/-- The amount of the last CASH record of a log, if any. -/
def lastCashValue (log : List Event) : Option Int :=
  log.foldl (fun acc e => match e with | Event.cash _ v => some v | _ => acc) none

/-- The replay-idempotence property exactly as the spec states it for a
finished producer state: the replay of the log succeeds and the replayed
final cash equals the amount last logged via CASH (false when the log
contains no CASH record at all, since then no last logged value exists). -/
def specReplayClaimHolds (w : Nat) (cmap : Int → Option Container) (st : Strategy) : Bool :=
  match replayList w cmap st.log, lastCashValue st.log with
  | some (r, _), some v => decide (r.cash = v)
  | _, _ => false

/-- Sum of the values of the recorded sales. -/
def salesTotal (l : List (Container × Int)) : Int :=
  (l.map (fun x => x.1.value)).sum

/-- Every recorded sale happened inside the delivery window of the sold
container: at the sale clock t, delivery.start was reached and delivery.end
had not passed. -/
def salesAllInWindow (l : List (Container × Int)) : Bool :=
  l.all (fun x => deliverableAt x.1 x.2)

/-- A Python runtime value, distinguishing an integer from a bound method
object: used to state what expression Strategy.cash actually returns. -/
inductive PyValue where
  | int : Int → PyValue
  | boundMethod : PyValue
deriving DecidableEq, Repr

/-- Calling Store.cash (store.py lines 108-113) yields the integer cash. -/
def Store.cash_call (s : Store) : PyValue :=
  PyValue.int s.cash

/-- Strategy.cash (expert.py lines 188-194) executes return self._store.cash
without calling it: the returned value is the bound method object Store.cash
of the underlying store, not an integer. -/
def Strategy.cash (_st : Strategy) : PyValue :=
  PyValue.boundMethod

/-- Concrete containers used in the counterexamples and witnesses below. -/
def c1 : Container := ⟨1, 1, 10, ⟨0, 1⟩, ⟨0, 5⟩⟩

def cA : Container := ⟨2, 1, 7, ⟨0, 9⟩, ⟨0, 5⟩⟩

def cB : Container := ⟨3, 1, 4, ⟨0, 9⟩, ⟨5, 5⟩⟩

def cC : Container := ⟨4, 2, 6, ⟨0, 9⟩, ⟨0, 9⟩⟩

def cD : Container := ⟨5, 1, 2, ⟨0, 9⟩, ⟨0, 9⟩⟩

def cE : Container := ⟨6, 1, 3, ⟨0, 9⟩, ⟨0, 9⟩⟩

def cF : Container := ⟨7, 1, 3, ⟨0, 0⟩, ⟨0, 5⟩⟩

def cG : Container := ⟨8, 1, 1, ⟨0, 9⟩, ⟨0, 5⟩⟩

def cH : Container := ⟨9, 1, 5, ⟨0, 9⟩, ⟨0, 5⟩⟩

def cS2 : Container := ⟨10, 2, 4, ⟨0, 9⟩, ⟨0, 9⟩⟩

def cM2 : Container := ⟨11, 2, 4, ⟨0, 9⟩, ⟨0, 9⟩⟩

def cM1 : Container := ⟨12, 1, 4, ⟨0, 9⟩, ⟨0, 9⟩⟩

/-- Container table for the one-container run of the expert scheduler used
by the replay witnesses: identifier 1 maps to c1. -/
def cmap1 : Int → Option Container :=
  fun id => if id = 1 then some c1 else none

/-- The finished state of the completed expert run on the single container
c1 with width 2 (the run places c1, then sells it in the post-flush). -/
def stC1run : Strategy :=
  (execAll 5 2 [c1]).getD (Strategy.init 2)

example : execAll 5 2 [c1] = some stC1run := by rfl
example : stC1run.store.cash = 10 := by decide
example : stC1run.log = [Event.add 0 1 0, Event.remove 1 1] := by decide
example : stC1run.sales = [(c1, 1)] := by decide
example : lastCashValue stC1run.log = none := by decide
example : (replayList 2 cmap1 stC1run.log).map Prod.fst = some stC1run.store := by decide

/-- The store reached by placing the size-2 container cC at columns 0-1 and
then the size-1 container cD on top of column 1 (both placements satisfy
can_add): cD sits strictly above cC in column 1. -/
def sTop : Store :=
  (((Store.init 2).add cC 0).bind (fun s => s.add cD 1)).getD (Store.init 2)

/-- C1: can_remove is claimed to return true iff the container is present
and topmost across all of its occupied columns, and to return false rather
than failing when absent. The code diverges twice: in the reachable store
sTop it answers true for cC although cD sits above cC in column 1 (it only
compares against the height of the first footprint column), and on an
absent container it raises a TypeError (none) because the source reads
loc[0] before its None test. -/
theorem C1_can_remove_divergence :
    (((Store.init 2).add cC 0).bind (fun s => s.add cD 1)) = some sTop ∧
    sTop.can_remove cC = some true ∧
    allColumnsTopped sTop cC = false ∧
    (Store.init 2).can_remove cE = none := by
  refine ⟨by decide, by decide, by decide, by decide⟩

/-- The store reached by stacking cH on top of cG in the single column of a
width-1 store; both placements satisfy can_add. -/
def sStack : Store :=
  (((Store.init 1).add cG 0).bind (fun s => s.add cH 0)).getD (Store.init 1)

/-- C2 counterexample: the claimed invariant says every present container
has all of its footprint columns at height exactly its recorded height plus
one; after the legal two-step sequence that stacks cH on cG, the bottom
container cG is present with recorded height 0 while its column has height
2, so the claimed invariant is false in a reachable state. -/
theorem C2_flat_invariant_cex :
    (((Store.init 1).add cG 0).bind (fun s => s.add cH 0)) = some sStack ∧
    (mapLookup sStack.map cG.identifier).isSome = true ∧
    allColumnsTopped sStack cG = false := by
  refine ⟨by decide, by decide, by decide⟩

/-- C4 counterexample: placing a size-2 container at column 1 of a width-2
store overruns the width; the claim says can_place returns false, but the
code raises the height_column assertion (none), which is not some false. -/
theorem C4_overrun_raises_cex :
    (Store.init 2).can_add cS2 1 = none ∧
    (Store.init 2).can_add cS2 1 ≠ some false := by
  refine ⟨by decide, by decide⟩

/-- The store holding only the size-2 container cM2 at columns 1-2 of a
width-3 store. -/
def sPre : Store :=
  ((Store.init 3).add cM2 1).getD (Store.init 3)

/-- The store after removing cM2 again from sPre. -/
def sPost : Store :=
  (sPre.remove cM2).getD sPre

/-- C5 counterexample: the claim says relocation is permitted iff
can_remove holds and placement is possible in the yard state after the
removal. In sPre, cM2 can be removed and can be placed at column 0 of the
post-removal store, yet can_move answers false, because the code evaluates
can_add on the pre-removal state where columns 0 and 1 have unequal
heights. -/
theorem C5_can_move_pre_removal_cex :
    sPre.can_move cM2 0 = some false ∧
    sPre.can_remove cM2 = some true ∧
    sPre.remove cM2 = some sPost ∧
    sPost.can_add cM2 0 = some true := by
  refine ⟨by decide, by decide, by decide, by decide⟩

/-- The strategy state after the intake step on the container cF whose
arrival window [0, 0) is already closed at clock 0 but whose delivery
window is open. -/
def stIntake : Strategy :=
  ((Strategy.init 2).intakeStep cF).getD (Strategy.init 2)

/-- C6 counterexample: the claim says the incoming container is placed
exactly when it is not expired and its arrival window has not closed. At
clock 0 the arrival window of cF is already closed (arrival.end = 0), so
the claim says cF is not placed; the code tests the delivery window
instead and does place cF. -/
theorem C6_intake_arrival_cex :
    (Strategy.init 2).intakeStep cF = some stIntake ∧
    cF ∈ stIntake.store.containers ∧
    ¬ ((0 : Int) < cF.arrival.stop) := by
  refine ⟨by decide, by decide, by decide⟩

/-- C7: sort_by_cost is claimed (and documented in its own docstring) to
return the sellable containers sorted by descending value, ahead of the
rest. With both cG (value 1) and cH (value 5) sellable at clock 0, the code
returns them in input order [cG, cH] instead of [cH, cG]: the call
sorted(sell, key=by_value) at expert.py line 421 discards its result. -/
theorem C7_sort_by_cost_unsorted :
    (Strategy.init 1).sort_by_cost [cG, cH] = [cG, cH] ∧
    (Strategy.init 1).sort_by_cost [cG, cH] ≠ [cH, cG] ∧
    (Strategy.init 1).valid_container cG = true ∧
    (Strategy.init 1).valid_container cH = true ∧
    cG.value < cH.value := by
  refine ⟨by decide, by decide, by decide, by decide, by decide⟩

/-- The strategy state holding cA below cB in the single column of a
width-1 store, reached by two add_container calls (clock 2). -/
def stPile : Strategy :=
  (((Strategy.init 1).add_container cA 0).bind
    (fun s => s.add_container cB 0)).getD (Strategy.init 1)

/-- C8 counterexample: with depth 1 against a column of height 2, the claim
predicts a remaining depth clipped at 0 (and a scan of the top container
cB); the code scans the bottom container cA and returns the unclipped
negative remaining depth -1, so pile_score differs from the claimed pair at
this input. -/
theorem C8_pile_score_cex :
    (((Strategy.init 1).add_container cA 0).bind
      (fun s => s.add_container cB 0)) = some stPile ∧
    (stPile.pile_score 0 1).map Prod.snd = some (-1) ∧
    (pileScoreClaim stPile 0 1).2 = 0 ∧
    stPile.pile_score 0 1 ≠ some (pileScoreClaim stPile 0 1) := by
  refine ⟨by decide, by decide, by decide, ?_⟩
  intro h
  have h2 := congrArg (Option.map Prod.snd) h
  rw [show (stPile.pile_score 0 1).map Prod.snd = some (-1) by decide] at h2
  simp only [Option.map_some'] at h2
  rw [show (pileScoreClaim stPile 0 1).2 = 0 by decide] at h2
  exact absurd h2 (by decide)

/-- C10: Strategy.cash is claimed to return the integer value of the store
cash accumulator, the same integer Store.cash() returns. The source returns
self._store.cash without calling it, so the value produced is the bound
method object, which is not the integer value: on a fresh Strategy the
call of Store.cash yields the integer 0 while Strategy.cash yields the
method object. -/
theorem C10_cash_returns_method :
    Strategy.cash (Strategy.init 2) = PyValue.boundMethod ∧
    Store.cash_call (Strategy.init 2).store = PyValue.int 0 ∧
    Strategy.cash (Strategy.init 2) ≠ Store.cash_call (Strategy.init 2).store := by
  refine ⟨by decide, by decide, by decide⟩

/-- C3 counterexample: the completed expert run on the single container c1
produces a log with no CASH record at all (the scheduler never calls
Logger.cash), so the spec property that the replayed final cash equals the
amount last logged via CASH fails on this run even though the replay itself
succeeds. -/
theorem C3_no_cash_logged_cex :
    execAll 5 2 [c1] = some stC1run ∧
    lastCashValue stC1run.log = none ∧
    specReplayClaimHolds 2 cmap1 stC1run = false := by
  refine ⟨by decide, by decide, by decide⟩

lemma getD_set_eq {α : Type} (l : List α) (i : Nat) (a d : α) (h : i < l.length) :
    (l.set i a).getD i d = a := by
  simp [List.getD_eq_getElem?_getD, List.getElem?_set_self', List.getElem?_eq_getElem h]

lemma getD_set_ne {α : Type} (l : List α) {i j : Nat} (a d : α) (h : i ≠ j) :
    (l.set i a).getD j d = l.getD j d := by
  simp [List.getD_eq_getElem?_getD, List.getElem?_set_ne h]

lemma canAddLoop_ne_none (s : Store) (l : Nat) (L : List Nat)
    (hv : ∀ i ∈ L, i < s.width) : canAddLoop s l L ≠ none := by
  induction L with
  | nil => simp [canAddLoop]
  | cons a as ih =>
    have ha : a < s.width := hv a (by simp)
    by_cases hh : colHeight s a = l
    · simpa [canAddLoop, ha, hh] using ih (fun i hi => hv i (by simp [hi]))
    · simp [canAddLoop, ha, hh]

lemma canAddLoop_some_true (s : Store) (l : Nat) (L : List Nat)
    (h : canAddLoop s l L = some true) : ∀ i ∈ L, i < s.width ∧ colHeight s i = l := by
  induction L with
  | nil => simp
  | cons a as ih =>
    intro i hi
    by_cases ha : a < s.width
    · by_cases hh : colHeight s a = l
      · rcases List.mem_cons.mp hi with rfl | hmem
        · exact ⟨ha, hh⟩
        · exact ih (by simpa [canAddLoop, ha, hh] using h) i hmem
      · simp [canAddLoop, ha, hh] at h
    · simp [canAddLoop, ha] at h

lemma canAddLoop_of_heights (s : Store) (l : Nat) (L : List Nat)
    (hv : ∀ i ∈ L, i < s.width) (hh : ∀ i ∈ L, colHeight s i = l) :
    canAddLoop s l L = some true := by
  induction L with
  | nil => simp [canAddLoop]
  | cons a as ih =>
    have ha : a < s.width := hv a (by simp)
    have hha : colHeight s a = l := hh a (by simp)
    simpa [canAddLoop, ha, hha] using
      ih (fun i hi => hv i (by simp [hi])) (fun i hi => hh i (by simp [hi]))

lemma canAddLoop_none_of_overrun (s : Store) (l : Nat) (L : List Nat)
    (hbad : ∃ j ∈ L, s.width ≤ j)
    (hgood : ∀ i ∈ L, i < s.width → colHeight s i = l) :
    canAddLoop s l L = none := by
  induction L with
  | nil => simp at hbad
  | cons a as ih =>
    by_cases ha : a < s.width
    · have hha : colHeight s a = l := hgood a (by simp) ha
      have hbad1 : ∃ j ∈ as, s.width ≤ j := by
        rcases hbad with ⟨j, hj, hwj⟩
        rcases List.mem_cons.mp hj with rfl | hmem
        · omega
        · exact ⟨j, hmem, hwj⟩
      simpa [canAddLoop, ha, hha] using
        ih hbad1 (fun i hi hiw => hgood i (by simp [hi]) hiw)
    · simp [canAddLoop, ha]

/-- C4 amended: with p a valid column, can_add never mutates (it is a pure
function of the store) and behaves as follows: when the footprint fits
inside the width, it returns true exactly when every footprint column has
the same height as column p, and never raises; when the footprint overruns
the width and all in-range footprint columns share the height of column p,
the scan reaches the out-of-range column and raises (none) instead of
returning false. -/
theorem C4_can_place_characterization (s : Store) (c : Container) (p : Nat)
    (hp : p < s.width) :
    (p + c.size ≤ s.width →
      ((s.can_add c p = some true ↔
          ∀ i ∈ List.range' p c.size, colHeight s i = colHeight s p) ∧
        s.can_add c p ≠ none)) ∧
    (s.width < p + c.size →
      (∀ i ∈ List.range' p c.size, i < s.width → colHeight s i = colHeight s p) →
      s.can_add c p = none) := by
  constructor
  · intro hfit
    have hv : ∀ i ∈ List.range' p c.size, i < s.width := by
      intro i hi
      have := List.mem_range'_1.mp hi
      omega
    constructor
    · constructor
      · intro h i hi
        exact (canAddLoop_some_true s (colHeight s p) (List.range' p c.size)
          (by simpa [Store.can_add, hp] using h) i hi).2
      · intro h
        simpa [Store.can_add, hp] using
          canAddLoop_of_heights s (colHeight s p) (List.range' p c.size) hv h
    · simpa [Store.can_add, hp] using
        canAddLoop_ne_none s (colHeight s p) (List.range' p c.size) hv
  · intro hover hgood
    have hbad : ∃ j ∈ List.range' p c.size, s.width ≤ j :=
      ⟨s.width, List.mem_range'_1.mpr ⟨hp.le, hover⟩, le_refl _⟩
    simpa [Store.can_add, hp] using
      canAddLoop_none_of_overrun s (colHeight s p) (List.range' p c.size) hbad hgood

/-- C4 witness: a size-2 container on the flat floor of a width-3 store at
column 0 is accepted by the characterization. -/
theorem C4_can_place_witness : (Store.init 3).can_add cS2 0 = some true :=
  ((C4_can_place_characterization (Store.init 3) cS2 0 (by decide)).1
    (by decide)).1.mpr (by decide)

lemma addAll_length (stor : List (List Container)) (c : Container) (L : List Nat) :
    (addAll stor c L).length = stor.length := by
  induction L generalizing stor with
  | nil => rfl
  | cons a as ih => simp [addAll, ih, List.length_set]

lemma addAll_getD_not_mem (stor : List (List Container)) (c : Container) (L : List Nat)
    (i : Nat) (hi : i ∉ L) : (addAll stor c L).getD i [] = stor.getD i [] := by
  induction L generalizing stor with
  | nil => rfl
  | cons a as ih =>
    have hne : a ≠ i := fun h => hi (by simp [h])
    rw [show addAll stor c (a :: as) = addAll (stor.set a ((stor.getD a []) ++ [c])) c as from rfl]
    rw [ih _ (fun h => hi (by simp [h]))]
    exact getD_set_ne _ _ _ hne

lemma addAll_range_getD_mem (n : Nat) :
    ∀ (p : Nat) (stor : List (List Container)) (c : Container),
      (∀ j ∈ List.range' p n, j < stor.length) →
      ∀ i ∈ List.range' p n,
        (addAll stor c (List.range' p n)).getD i [] = stor.getD i [] ++ [c] := by
  induction n with
  | zero => intro p stor c _ i hi; simp [List.range'] at hi
  | succ n ih =>
    intro p stor c hlen i hi
    have hcons : List.range' p (n + 1) = p :: List.range' (p + 1) n := rfl
    rw [hcons] at hi ⊢
    rcases List.mem_cons.mp hi with rfl | hmem
    · have hp : i < stor.length := hlen i (by rw [hcons]; exact List.mem_cons_self _ _)
      have hnot : i ∉ List.range' (i + 1) n := by
        intro h
        have := List.mem_range'_1.mp h
        omega
      rw [show addAll stor c (i :: List.range' (i + 1) n)
            = addAll (stor.set i ((stor.getD i []) ++ [c])) c (List.range' (i + 1) n) from rfl]
      rw [addAll_getD_not_mem _ _ _ _ hnot]
      exact getD_set_eq _ _ _ _ hp
    · have hpi : p ≠ i := by
        have := List.mem_range'_1.mp hmem
        omega
      rw [show addAll stor c (p :: List.range' (p + 1) n)
            = addAll (stor.set p ((stor.getD p []) ++ [c])) c (List.range' (p + 1) n) from rfl]
      have hlen1 : ∀ j ∈ List.range' (p + 1) n, j < (stor.set p ((stor.getD p []) ++ [c])).length := by
        intro j hj
        rw [List.length_set]
        exact hlen j (by rw [hcons]; exact List.mem_cons_of_mem _ hj)
      rw [ih (p + 1) _ c hlen1 i hmem]
      rw [getD_set_ne _ _ _ hpi]

lemma mapLookup_mapInsert (m : List (Int × YLoc)) (k : Int) (v : YLoc) :
    mapLookup (mapInsert m k v) k = some v := by
  simp [mapInsert, mapLookup]

lemma store_can_add_true (s : Store) (c : Container) (p : Nat)
    (h : s.can_add c p = some true) :
    p < s.width ∧ ∀ i ∈ List.range' p c.size, i < s.width ∧ colHeight s i = colHeight s p := by
  by_cases hp : p < s.width
  · exact ⟨hp, canAddLoop_some_true s (colHeight s p) _ (by simpa [Store.can_add, hp] using h)⟩
  · simp [Store.can_add, hp] at h

lemma store_add_elim (s : Store) (c : Container) (p : Nat) (s1 : Store)
    (h : s.add c p = some s1) :
    s.can_add c p = some true ∧
    s1 = { s with
      map := mapInsert s.map c.identifier (colHeight s p, p),
      containers := s.containers ++ [c],
      storage := addAll s.storage c (List.range' p c.size) } := by
  cases hca : s.can_add c p with
  | none => simp [Store.add, hca] at h
  | some b =>
    cases b with
    | false => simp [Store.add, hca] at h
    | true =>
      refine ⟨rfl, ?_⟩
      have h3 : s.add c p = some { s with
          map := mapInsert s.map c.identifier (colHeight s p, p),
          containers := s.containers ++ [c],
          storage := addAll s.storage c (List.range' p c.size) } := by
        unfold Store.add
        rw [hca]
        rfl
      rw [h3] at h
      exact (Option.some.inj h).symm

/-- C2 amended: the flat-surface property holds at placement time: directly
after a successful place of container c at column p, c is recorded at
location (h, p) where h was the shared height of the footprint, and every
column in [p, p + size) now has height exactly h + 1 (allColumnsTopped).
The original claim, that this persists in every reachable state for every
present container, is refuted by C2_flat_invariant_cex: stacking another
container on top of c breaks the equality for c while c remains present. -/
theorem C2_flat_after_place (s : Store) (c : Container) (p : Nat) (s1 : Store)
    (hwf : s.storage.length = s.width) (h : s.add c p = some s1) :
    allColumnsTopped s1 c = true := by
  obtain ⟨hca, hs1⟩ := store_add_elim s c p s1 h
  obtain ⟨hp, hcols⟩ := store_can_add_true s c p hca
  subst hs1
  unfold allColumnsTopped
  rw [show mapLookup (mapInsert s.map c.identifier (colHeight s p, p)) c.identifier
        = some (colHeight s p, p) from mapLookup_mapInsert _ _ _]
  rw [decide_eq_true_eq]
  intro i hi
  have hlen : ∀ j ∈ List.range' p c.size, j < s.storage.length := by
    intro j hj
    rw [hwf]
    exact (hcols j hj).1
  show ((addAll s.storage c (List.range' p c.size)).getD i []).length = colHeight s p + 1
  rw [addAll_range_getD_mem c.size p s.storage c hlen i hi, List.length_append]
  have hcol := (hcols i hi).2
  unfold colHeight at hcol
  show (s.storage.getD i []).length + [c].length = (s.storage.getD p []).length + 1
  rw [hcol]
  rfl

/-- C2 witness: placing cG on the empty width-1 store yields a state where
cG tops all of its columns. -/
theorem C2_flat_after_place_witness :
    allColumnsTopped (((Store.init 1).add cG 0).getD (Store.init 1)) cG = true :=
  C2_flat_after_place (Store.init 1) cG 0 _ (by decide) (by decide)

lemma optionBindSome {α β : Type} (a : α) (f : α → Option β) :
    ((some a : Option α) >>= f) = f a := rfl

lemma mapInsert_idem (m : List (Int × YLoc)) (k : Int) (v : YLoc) :
    mapInsert (mapInsert m k v) k v = mapInsert m k v := by
  simp [mapInsert, List.filter_filter]

/-- C5 amended: can_move evaluates can_remove and can_add on the current,
pre-removal state (refuted as a post-removal check by
C5_can_move_pre_removal_cex), and when it answers true and the subsequent
remove and add both succeed, move is exactly their composition: the final
state is the state produced by add after remove (the trailing map rewrite
of the source is the identity). When can_move answers false, move silently
returns the unchanged store. -/
theorem C5_relocate_composition (s : Store) (c : Container) (p : Nat) (s1 s2 : Store)
    (hm : s.can_move c p = some true) (h1 : s.remove c = some s1)
    (h2 : s1.add c p = some s2) :
    s.move c p = some s2 ∧
    (∀ s3 : Store, s3.can_move c p = some false → s3.move c p = some s3) := by
  constructor
  · obtain ⟨hca1, hs2⟩ := store_add_elim s1 c p s2 h2
    have hmapEq : mapLookup s2.map c.identifier = some (colHeight s1 p, p) := by
      rw [hs2]
      exact mapLookup_mapInsert _ _ _
    have hfix : mapInsert s2.map c.identifier (colHeight s1 p, p) = s2.map := by
      rw [hs2]
      exact mapInsert_idem _ _ _
    unfold Store.move
    rw [hm, optionBindSome, if_pos rfl, h1, optionBindSome, h2, optionBindSome, hmapEq]
    show some { s2 with map := mapInsert s2.map c.identifier (colHeight s1 p, p) } = some s2
    rw [hfix]
  · intro s3 hm3
    unfold Store.move
    rw [hm3, optionBindSome]
    rfl

/-- The stores used by the C5 witness: cM1 alone at column 0 of a width-2
store, then removed, then re-added at column 1. -/
def sMvA : Store := ((Store.init 2).add cM1 0).getD (Store.init 2)

def sMvB : Store := (sMvA.remove cM1).getD sMvA

def sMvC : Store := (sMvB.add cM1 1).getD sMvB

/-- C5 witness: moving cM1 from column 0 to column 1 is the composition of
its removal and its re-addition. -/
theorem C5_relocate_composition_witness :
    sMvA.move cM1 1 = some sMvC ∧
    (∀ s3 : Store, s3.can_move cM1 1 = some false → s3.move cM1 1 = some s3) :=
  C5_relocate_composition sMvA cM1 1 sMvB sMvC (by decide) (by decide) (by decide)

/-- C6 amended: once the least full designated pile p1 is computed and
can_add has answered b there, the intake step places the incoming container
exactly when b holds and the clock is still before the delivery window end:
the source gates intake on the delivery window (its not-expired conjunct is
the same condition again), not on the arrival window, which the
counterexample C6_intake_arrival_cex shows is ignored. -/
theorem C6_intake_delivery_gate (st : Strategy) (c : Container) (p1 : Nat) (b : Bool)
    (h1 : st.least_full_pile c = some p1) (h2 : st.store.can_add c p1 = some b) :
    st.intakeStep c =
      if b = true ∧ st.time < c.delivery.stop then st.add_container c p1 else some st := by
  unfold Strategy.intakeStep
  rw [h1, optionBindSome, h2, optionBindSome]
  by_cases hb : b = true
  · by_cases ht : st.time < c.delivery.stop
    · rw [if_pos ⟨hb, decide_eq_false (by omega), ht⟩, if_pos ⟨hb, ht⟩]
    · rw [if_neg (fun h => ht h.2.2), if_neg (fun h => ht h.2)]
  · rw [if_neg (fun h => hb h.1), if_neg (fun h => hb h.1)]

/-- C6 witness: at clock 0, the fresh width-2 strategy places c1 at its
least full pile 0 because can_add holds there and the delivery window of c1
is still open. -/
theorem C6_intake_delivery_gate_witness :
    (Strategy.init 2).intakeStep c1 =
      if true = true ∧ (Strategy.init 2).time < c1.delivery.stop
      then (Strategy.init 2).add_container c1 0 else some (Strategy.init 2) :=
  C6_intake_delivery_gate (Strategy.init 2) c1 0 true (by decide) (by decide)

/-- C8 amended: for a valid pile position and a non-negative depth,
pile_score computes exactly pileScoreAmended: the weighted average over the
bottom min(depth, height) entries of the column (top-down only when depth
reaches the column height), and the remaining depth depth - height,
unclipped and negative when the column is taller than depth. -/
theorem C8_pile_score_characterization (st : Strategy) (p : Nat) (depth : Int)
    (hd : 0 ≤ depth) (hp : p < st.store.width) :
    st.pile_score p depth = some (pileScoreAmended st p depth) := by
  have hcond : (0 ≤ depth ∧ p < st.store.width) := ⟨hd, hp⟩
  have hmin : (if 0 < depth - ((colHeight st.store p : Nat) : Int) then colHeight st.store p
               else depth.toNat) = min depth.toNat ((st.store.storage.getD p []).length) := by
    show _ = min depth.toNat (colHeight st.store p)
    by_cases hlt : 0 < depth - ((colHeight st.store p : Nat) : Int)
    · rw [if_pos hlt]
      omega
    · rw [if_neg hlt]
      omega
  unfold Strategy.pile_score Strategy.money_from_pile Strategy.containers_from_pile
  simp only [if_pos hcond, optionBindSome]
  rw [hmin]
  unfold pileScoreAmended
  dsimp only
  refine congrArg some (Prod.ext ?_ ?_)
  · show (3 * _ + 1 * _) / (3 + 1) = (3 * _ + _) / 4
    norm_num
  · rfl

/-- C8 witness: the characterization applied to the two-container column of
stPile at depth 1. -/
theorem C8_pile_score_characterization_witness :
    stPile.pile_score 0 1 = some (pileScoreAmended stPile 0 1) :=
  C8_pile_score_characterization stPile 0 1 (by decide) (by decide)

lemma store_remove_elim (s : Store) (c : Container) (s1 : Store)
    (h : s.remove c = some s1) :
    c ∈ s.containers ∧ s1.cash = s.cash ∧ s1.containers = s.containers.erase c ∧
    s1.width = s.width := by
  unfold Store.remove at h
  cases hml : mapLookup s.map c.identifier with
  | none => simp only [hml] at h; exact Option.noConfusion h
  | some loc =>
    simp only [hml] at h
    cases hcr : s.can_remove c with
    | none => simp only [hcr] at h; exact Option.noConfusion h
    | some b =>
      cases b with
      | false => simp only [hcr] at h; exact Option.noConfusion h
      | true =>
        simp only [hcr] at h
        by_cases hm : c ∈ s.containers
        · rw [if_pos hm] at h
          cases hdel : (List.range' loc.2 c.size).foldlM
              (fun stor i => delAt stor i loc.1) s.storage with
          | none => simp only [hdel] at h; exact Option.noConfusion h
          | some stor1 =>
            simp only [hdel] at h
            have hrec := Option.some.inj h
            refine ⟨hm, ?_, ?_, ?_⟩ <;> rw [← hrec]
        · rw [if_neg hm] at h
          exact Option.noConfusion h

lemma store_remove_add_cash (s : Store) (c : Container) (v : Int) :
    (s.add_cash v).remove c = (s.remove c).map (fun x => x.add_cash v) := by
  unfold Store.remove
  dsimp only [Store.add_cash]
  rw [show Store.can_remove { s with cash := s.cash + v } c = s.can_remove c from rfl]
  cases hml : mapLookup s.map c.identifier with
  | none => rfl
  | some loc =>
    cases hcr : s.can_remove c with
    | none => rfl
    | some b =>
      cases b with
      | false => rfl
      | true =>
        dsimp only
        by_cases hm : c ∈ s.containers
        · rw [if_pos hm, if_pos hm]
          cases hdel : (List.range' loc.2 c.size).foldlM
              (fun stor i => delAt stor i loc.1) s.storage with
          | none => rfl
          | some stor1 => rfl
        · rw [if_neg hm, if_neg hm]
          rfl

lemma store_add_fields (s : Store) (c : Container) (p : Nat) (s1 : Store)
    (h : s.add c p = some s1) :
    s1.cash = s.cash ∧ s1.containers = s.containers ++ [c] ∧ s1.width = s.width := by
  obtain ⟨-, hs1⟩ := store_add_elim s c p s1 h
  subst hs1
  exact ⟨rfl, rfl, rfl⟩

lemma store_move_fields (s : Store) (c : Container) (p : Nat) (s1 : Store)
    (h : s.move c p = some s1) :
    s1.cash = s.cash ∧
    (s1 = s ∨ (c ∈ s.containers ∧ s1.containers = (s.containers.erase c) ++ [c])) := by
  unfold Store.move at h
  cases hcm : s.can_move c p with
  | none => simp only [hcm] at h; exact absurd h (by simp)
  | some b =>
    rw [hcm, optionBindSome] at h
    cases b with
    | false =>
      simp only [Bool.false_eq_true, if_false] at h
      have := Option.some.inj h
      exact ⟨by rw [← this], Or.inl this.symm⟩
    | true =>
      rw [if_pos rfl] at h
      cases hrm : s.remove c with
      | none => rw [hrm] at h; exact absurd h (by simp)
      | some sA =>
        rw [hrm, optionBindSome] at h
        cases had : sA.add c p with
        | none => rw [had] at h; exact absurd h (by simp)
        | some sB =>
          rw [had, optionBindSome] at h
          have hB := Option.some.inj h
          obtain ⟨hmem, hcashA, hcontA, -⟩ := store_remove_elim s c sA hrm
          obtain ⟨hcashB, hcontB, -⟩ := store_add_fields sA c p sB had
          constructor
          · rw [← hB]
            show sB.cash = s.cash
            rw [hcashB, hcashA]
          · refine Or.inr ⟨hmem, ?_⟩
            rw [← hB]
            show sB.containers = s.containers.erase c ++ [c]
            rw [hcontB, hcontA]

lemma optionDotBindSome {α β : Type} (a : α) (f : α → Option β) :
    (Option.some a).bind f = f a := rfl

lemma replayFrom_append (cmap : Int → Option Container) (acc : Store × Int)
    (l : List Event) (e : Event) :
    replayFrom cmap acc (l ++ [e]) =
      (replayFrom cmap acc l).bind (fun acc1 => replayStep cmap acc1 e) := by
  induction l generalizing acc with
  | nil =>
    show ((replayStep cmap acc e).bind fun acc1 => some acc1) = replayStep cmap acc e
    cases replayStep cmap acc e <;> rfl
  | cons x xs ih =>
    show (replayStep cmap acc x).bind (fun acc1 => replayFrom cmap acc1 (xs ++ [e]))
        = ((replayStep cmap acc x).bind (fun acc1 => replayFrom cmap acc1 xs)).bind
            (fun acc1 => replayStep cmap acc1 e)
    cases replayStep cmap acc x with
    | none => rfl
    | some acc1 => exact ih acc1

lemma replayList_snoc (w : Nat) (cmap : Int → Option Container) (log : List Event)
    (e : Event) (acc : Store × Int) (h : replayList w cmap log = some acc) :
    replayList w cmap (log ++ [e]) = replayStep cmap acc e := by
  unfold replayList at h ⊢
  rw [replayFrom_append, h, optionDotBindSome]

/-- The simulation invariant tying a producer state to its own log: the
replay of the log rebuilds exactly the producer store with a last timestamp
at most the producer clock; every stored container is found by the
container table under its identifier; and the cash equals the total of the
recorded (ghost) sales, each of which happened strictly inside the delivery
window of the sold container. -/
def SimInv (w : Nat) (cmap : Int → Option Container) (st : Strategy) : Prop :=
  (∃ last, replayList w cmap st.log = some (st.store, last) ∧ last ≤ st.time) ∧
  (∀ d ∈ st.store.containers, cmap d.identifier = some d) ∧
  st.store.cash = salesTotal st.sales ∧
  salesAllInWindow st.sales = true

lemma inv_init (w : Nat) (cmap : Int → Option Container) : SimInv w cmap (Strategy.init w) := by
  refine ⟨⟨0, rfl, le_refl 0⟩, ?_, rfl, rfl⟩
  intro d hd
  exact absurd hd (by simp [Strategy.init, Store.init])

lemma lose_elim (st : Strategy) (c : Container) (st1 : Strategy)
    (h : st.lose_container c = some st1) :
    ∃ s1, st.store.remove c = some s1 ∧
      st1 = { st with store := s1,
                      log := st.log ++ [Event.remove st.time c.identifier],
                      time := st.time + 1 } := by
  unfold Strategy.lose_container at h
  cases hcr : st.store.can_remove c with
  | none => rw [hcr] at h; exact Option.noConfusion h
  | some b =>
    rw [hcr, optionBindSome] at h
    cases b with
    | false => simp at h
    | true =>
      rw [if_pos rfl] at h
      cases hrm : st.store.remove c with
      | none => rw [hrm] at h; exact Option.noConfusion h
      | some s1 =>
        rw [hrm, optionBindSome] at h
        exact ⟨s1, rfl, (Option.some.inj h).symm⟩

lemma sell_elim (st : Strategy) (c : Container) (st1 : Strategy)
    (h : st.sell_container c = some st1) :
    ∃ s1, (st.store.add_cash c.value).remove c = some s1 ∧
      st1 = { st with store := s1,
                      log := st.log ++ [Event.remove st.time c.identifier],
                      time := st.time + 1,
                      sales := st.sales ++ [(c, st.time)] } := by
  unfold Strategy.sell_container at h
  cases hcr : st.store.can_remove c with
  | none => rw [hcr] at h; exact Option.noConfusion h
  | some b =>
    rw [hcr, optionBindSome] at h
    cases b with
    | false => simp at h
    | true =>
      rw [if_pos rfl] at h
      cases hrm : (st.store.add_cash c.value).remove c with
      | none => rw [hrm] at h; exact Option.noConfusion h
      | some s1 =>
        rw [hrm, optionBindSome] at h
        exact ⟨s1, rfl, (Option.some.inj h).symm⟩

lemma move_elim (st : Strategy) (c : Container) (p : Nat) (st1 : Strategy)
    (h : st.move_container c p = some st1) :
    ∃ s1, st.store.move c p = some s1 ∧ st.store.can_move c p = some true ∧
      st1 = { st with store := s1,
                      log := st.log ++ [Event.move st.time c.identifier p],
                      time := st.time + 1 } := by
  unfold Strategy.move_container at h
  cases hcm : st.store.can_move c p with
  | none => rw [hcm] at h; exact Option.noConfusion h
  | some b =>
    rw [hcm, optionBindSome] at h
    cases b with
    | false => simp at h
    | true =>
      rw [if_pos rfl] at h
      cases hmv : st.store.move c p with
      | none => rw [hmv] at h; exact Option.noConfusion h
      | some s1 =>
        rw [hmv, optionBindSome] at h
        exact ⟨s1, rfl, rfl, (Option.some.inj h).symm⟩

lemma add_elim (st : Strategy) (c : Container) (p : Nat) (st1 : Strategy)
    (h : st.add_container c p = some st1) :
    ∃ s1, st.store.add c p = some s1 ∧
      st1 = { st with store := s1,
                      log := st.log ++ [Event.add st.time c.identifier p],
                      time := st.time + 1 } := by
  unfold Strategy.add_container at h
  cases hca : st.store.can_add c p with
  | none => rw [hca] at h; exact Option.noConfusion h
  | some b =>
    rw [hca, optionBindSome] at h
    cases b with
    | false => simp at h
    | true =>
      rw [if_pos rfl] at h
      cases had : st.store.add c p with
      | none => rw [had] at h; exact Option.noConfusion h
      | some s1 =>
        rw [had, optionBindSome] at h
        exact ⟨s1, rfl, (Option.some.inj h).symm⟩

lemma store_move_true_fields (s : Store) (c : Container) (p : Nat) (s1 : Store)
    (hcm : s.can_move c p = some true) (h : s.move c p = some s1) :
    c ∈ s.containers ∧ s1.cash = s.cash ∧ s1.containers = (s.containers.erase c) ++ [c] := by
  unfold Store.move at h
  rw [hcm, optionBindSome, if_pos rfl] at h
  cases hrm : s.remove c with
  | none => rw [hrm] at h; exact Option.noConfusion h
  | some sA =>
    rw [hrm, optionBindSome] at h
    cases had : sA.add c p with
    | none => rw [had] at h; exact Option.noConfusion h
    | some sB =>
      rw [had, optionBindSome] at h
      have hB := Option.some.inj h
      obtain ⟨hmem, hcashA, hcontA, -⟩ := store_remove_elim s c sA hrm
      obtain ⟨hcashB, hcontB, -⟩ := store_add_fields sA c p sB had
      refine ⟨hmem, ?_, ?_⟩
      · rw [← hB]
        show sB.cash = s.cash
        rw [hcashB, hcashA]
      · rw [← hB]
        show sB.containers = s.containers.erase c ++ [c]
        rw [hcontB, hcontA]

lemma inv_lose (w : Nat) (cmap : Int → Option Container) (st st1 : Strategy) (c : Container)
    (hInv : SimInv w cmap st) (hexp : c.delivery.stop ≤ st.time)
    (h : st.lose_container c = some st1) : SimInv w cmap st1 := by
  obtain ⟨s1, hrm, hst1⟩ := lose_elim st c st1 h
  obtain ⟨⟨last, hrep, hle⟩, hmapOK, hcash, hwin⟩ := hInv
  obtain ⟨hmem, hcash1, hcont1, -⟩ := store_remove_elim _ _ _ hrm
  have hcmapc : cmap c.identifier = some c := hmapOK c hmem
  have hdel : deliverableAt c st.time = false := by
    simp only [deliverableAt, decide_eq_false_iff_not]
    omega
  subst hst1
  refine ⟨⟨st.time, ?_, by show st.time ≤ st.time + 1; omega⟩, ?_, ?_, ?_⟩
  · show replayList w cmap (st.log ++ [Event.remove st.time c.identifier]) = some (s1, st.time)
    rw [replayList_snoc w cmap st.log _ _ hrep]
    show (if st.time ≥ last then
            (cmap c.identifier).bind (fun c0 => ((st.store.remove c0).map
              (fun s => (if deliverableAt c0 st.time then s.add_cash c0.value else s, st.time))))
          else none) = some (s1, st.time)
    rw [if_pos hle, hcmapc, optionDotBindSome, hrm]
    show some ((if deliverableAt c st.time then s1.add_cash c.value else s1), st.time)
        = some (s1, st.time)
    rw [hdel]
    rfl
  · intro d hd
    apply hmapOK
    have hd2 : d ∈ st.store.containers.erase c := by rw [← hcont1]; exact hd
    exact List.mem_of_mem_erase hd2
  · show s1.cash = salesTotal st.sales
    rw [hcash1, hcash]
  · exact hwin

lemma inv_sell (w : Nat) (cmap : Int → Option Container) (st st1 : Strategy) (c : Container)
    (hval : c.delivery.start ≤ st.time ∧ st.time < c.delivery.stop)
    (hInv : SimInv w cmap st)
    (h : st.sell_container c = some st1) : SimInv w cmap st1 := by
  obtain ⟨s1, hrm, hst1⟩ := sell_elim st c st1 h
  obtain ⟨⟨last, hrep, hle⟩, hmapOK, hcash, hwin⟩ := hInv
  have hrm2 : (st.store.remove c).map (fun x => x.add_cash c.value) = some s1 := by
    rw [← store_remove_add_cash]
    exact hrm
  cases hrm0 : st.store.remove c with
  | none => rw [hrm0] at hrm2; exact Option.noConfusion hrm2
  | some s0 =>
    rw [hrm0] at hrm2
    have hs1 : s1 = s0.add_cash c.value := (Option.some.inj hrm2).symm
    obtain ⟨hmem, hcash0, hcont0, -⟩ := store_remove_elim _ _ _ hrm0
    have hcmapc : cmap c.identifier = some c := hmapOK c hmem
    have hdel : deliverableAt c st.time = true := by
      simp only [deliverableAt, decide_eq_true_eq]
      exact hval
    subst hst1
    refine ⟨⟨st.time, ?_, by show st.time ≤ st.time + 1; omega⟩, ?_, ?_, ?_⟩
    · show replayList w cmap (st.log ++ [Event.remove st.time c.identifier]) = some (s1, st.time)
      rw [replayList_snoc w cmap st.log _ _ hrep]
      show (if st.time ≥ last then
              (cmap c.identifier).bind (fun c0 => ((st.store.remove c0).map
                (fun s => (if deliverableAt c0 st.time then s.add_cash c0.value else s, st.time))))
            else none) = some (s1, st.time)
      rw [if_pos hle, hcmapc, optionDotBindSome, hrm0]
      show some ((if deliverableAt c st.time then s0.add_cash c.value else s0), st.time)
          = some (s1, st.time)
      rw [hdel, hs1]
      rfl
    · intro d hd
      apply hmapOK
      have hd2 : d ∈ s1.containers := hd
      rw [hs1] at hd2
      have hd3 : d ∈ s0.containers := hd2
      rw [hcont0] at hd3
      exact List.mem_of_mem_erase hd3
    · show s1.cash = salesTotal (st.sales ++ [(c, st.time)])
      rw [hs1]
      show s0.cash + c.value = _
      rw [hcash0, hcash]
      simp [salesTotal]
    · show salesAllInWindow (st.sales ++ [(c, st.time)]) = true
      unfold salesAllInWindow at hwin ⊢
      rw [List.all_append, hwin]
      simp [hdel]

lemma inv_move (w : Nat) (cmap : Int → Option Container) (st st1 : Strategy) (c : Container)
    (p : Nat) (hInv : SimInv w cmap st)
    (h : st.move_container c p = some st1) : SimInv w cmap st1 := by
  obtain ⟨s1, hmv, hcm, hst1⟩ := move_elim st c p st1 h
  obtain ⟨⟨last, hrep, hle⟩, hmapOK, hcash, hwin⟩ := hInv
  obtain ⟨hmem, hcashmv, hcont⟩ := store_move_true_fields _ _ _ _ hcm hmv
  have hcmapc : cmap c.identifier = some c := hmapOK c hmem
  subst hst1
  refine ⟨⟨st.time, ?_, by show st.time ≤ st.time + 1; omega⟩, ?_, ?_, ?_⟩
  · show replayList w cmap (st.log ++ [Event.move st.time c.identifier p]) = some (s1, st.time)
    rw [replayList_snoc w cmap st.log _ _ hrep]
    show (if st.time ≥ last then
            (cmap c.identifier).bind (fun c0 => (st.store.move c0 p).map (fun s => (s, st.time)))
          else none) = some (s1, st.time)
    rw [if_pos hle, hcmapc, optionDotBindSome, hmv]
    rfl
  · intro d hd
    have hd2 : d ∈ (st.store.containers.erase c) ++ [c] := by rw [← hcont]; exact hd
    rcases List.mem_append.mp hd2 with hmem2 | hmem2
    · exact hmapOK d (List.mem_of_mem_erase hmem2)
    · rw [List.mem_singleton.mp hmem2]
      exact hcmapc
  · show s1.cash = salesTotal st.sales
    rw [hcashmv, hcash]
  · exact hwin

lemma inv_add (w : Nat) (cmap : Int → Option Container) (st st1 : Strategy) (c : Container)
    (p : Nat) (hc : cmap c.identifier = some c) (hInv : SimInv w cmap st)
    (h : st.add_container c p = some st1) : SimInv w cmap st1 := by
  obtain ⟨s1, had, hst1⟩ := add_elim st c p st1 h
  obtain ⟨⟨last, hrep, hle⟩, hmapOK, hcash, hwin⟩ := hInv
  obtain ⟨hcash1, hcont1, -⟩ := store_add_fields _ _ _ _ had
  subst hst1
  refine ⟨⟨st.time, ?_, by show st.time ≤ st.time + 1; omega⟩, ?_, ?_, ?_⟩
  · show replayList w cmap (st.log ++ [Event.add st.time c.identifier p]) = some (s1, st.time)
    rw [replayList_snoc w cmap st.log _ _ hrep]
    show (if st.time ≥ last then
            (cmap c.identifier).bind (fun c0 => (st.store.add c0 p).map (fun s => (s, st.time)))
          else none) = some (s1, st.time)
    rw [if_pos hle, hc, optionDotBindSome, had]
    rfl
  · intro d hd
    have hd2 : d ∈ st.store.containers ++ [c] := by rw [← hcont1]; exact hd
    rcases List.mem_append.mp hd2 with hmem | hmem
    · exact hmapOK d hmem
    · rw [List.mem_singleton.mp hmem]
      exact hc
  · show s1.cash = salesTotal st.sales
    rw [hcash1, hcash]
  · exact hwin

lemma expired_container_bound (st : Strategy) (c : Container)
    (he : st.expired_container c = true) : c.delivery.stop ≤ st.time := by
  unfold Strategy.expired_container at he
  simpa using of_decide_eq_true he

lemma valid_container_bounds (st : Strategy) (c : Container)
    (hv : st.valid_container c = true) :
    c.delivery.start ≤ st.time ∧ st.time < c.delivery.stop := by
  unfold Strategy.valid_container Strategy.expired_container at hv
  simp only [Bool.and_eq_true, decide_eq_true_eq, Bool.not_eq_true',
    decide_eq_false_iff_not] at hv
  omega

/-- An invariant P of Strategy states closed under the four logging
primitives of the scheduler, where lose is only ever invoked on an expired
container, sell only on a currently valid one, and add only on containers
satisfying Q (in the scheduler, Q holds of every input container). Every
compound operation of the scheduler mutates state exclusively through these
four primitives, so such a P is preserved by the whole scheduler. -/
def PrimClosed (P : Strategy → Prop) (Q : Container → Prop) : Prop :=
  (∀ st st1 c, P st → c.delivery.stop ≤ st.time → st.lose_container c = some st1 → P st1) ∧
  (∀ st st1 c, P st → c.delivery.start ≤ st.time → st.time < c.delivery.stop →
    st.sell_container c = some st1 → P st1) ∧
  (∀ st st1 c p, P st → st.move_container c p = some st1 → P st1) ∧
  (∀ st st1 c p, P st → Q c → st.add_container c p = some st1 → P st1)

lemma prim_evaluate {P : Strategy → Prop} {Q : Container → Prop} (hPC : PrimClosed P Q)
    (st st1 : Strategy) (c : Container) (p2 : Nat) (hP : P st)
    (h : st.evaluate_container c p2 = some st1) : P st1 := by
  obtain ⟨hL, hS, hM, hA⟩ := hPC
  unfold Strategy.evaluate_container at h
  cases hca : st.store.can_add c p2 with
  | none => rw [hca] at h; exact Option.noConfusion h
  | some a =>
    rw [hca, optionBindSome] at h
    cases a with
    | false =>
      simp only [Bool.false_eq_true, if_false] at h
      exact (Option.some.inj h) ▸ hP
    | true =>
      rw [if_pos rfl] at h
      cases hcr : st.store.can_remove c with
      | none => rw [hcr] at h; exact Option.noConfusion h
      | some r =>
        rw [hcr, optionBindSome] at h
        cases r with
        | false =>
          simp only [Bool.false_eq_true, if_false] at h
          exact (Option.some.inj h) ▸ hP
        | true =>
          rw [if_pos rfl] at h
          by_cases hexp : st.expired_container c = true
          · rw [if_pos hexp] at h
            exact hL st st1 c hP (expired_container_bound st c hexp) h
          · rw [if_neg hexp] at h
            by_cases hv : st.valid_container c = true
            · rw [if_pos hv] at h
              obtain ⟨h1, h2⟩ := valid_container_bounds st c hv
              exact hS st st1 c hP h1 h2 h
            · rw [if_neg hv] at h
              exact hM st st1 c p2 hP h

lemma prim_treatLoop {P : Strategy → Prop} {Q : Container → Prop} (hPC : PrimClosed P Q)
    (c : Container) (before : Bool) (L : List Container) :
    ∀ st st1 : Strategy, P st → Strategy.treatLoop c before L st = some st1 → P st1 := by
  obtain ⟨hL, hS, hM, hA⟩ := hPC
  induction L with
  | nil =>
    intro st st1 hP h
    exact (Option.some.inj h) ▸ hP
  | cons r rest ih =>
    intro st st1 hP h
    unfold Strategy.treatLoop at h
    by_cases hg : (c.delivery.stop > st.time ∧ (before = true → c.value < r.value))
    · rw [if_pos hg] at h
      cases hbr : (if st.expired_container r then st.lose_container r
                   else if st.valid_container r then st.sell_container r else some st) with
      | none => rw [hbr] at h; exact Option.noConfusion h
      | some stA =>
        rw [hbr, optionDotBindSome] at h
        have hPA : P stA := by
          by_cases hexp : st.expired_container r = true
          · rw [if_pos hexp] at hbr
            exact hL st stA r hP (expired_container_bound st r hexp) hbr
          · rw [if_neg hexp] at hbr
            by_cases hv : st.valid_container r = true
            · rw [if_pos hv] at hbr
              obtain ⟨h1, h2⟩ := valid_container_bounds st r hv
              exact hS st stA r hP h1 h2 hbr
            · rw [if_neg hv] at hbr
              exact (Option.some.inj hbr) ▸ hP
        exact ih stA st1 hPA h
    · rw [if_neg hg] at h
      exact (Option.some.inj h) ▸ hP

lemma prim_treat {P : Strategy → Prop} {Q : Container → Prop} (hPC : PrimClosed P Q)
    (st st1 : Strategy) (c : Container) (before : Bool) (hP : P st)
    (h : st.treat_removables c before = some st1) : P st1 := by
  unfold Strategy.treat_removables at h
  cases hrm : st.store.removable_containers with
  | none => rw [hrm] at h; exact Option.noConfusion h
  | some rm =>
    rw [hrm, optionBindSome] at h
    exact prim_treatLoop hPC c before (st.sort_by_cost rm) st st1 hP h

lemma prim_digLoop {P : Strategy → Prop} {Q : Container → Prop} (hPC : PrimClosed P Q)
    (p : Nat) : ∀ (n : Nat) (st st1 : Strategy), P st →
      Strategy.digLoop p n st = some st1 → P st1 := by
  intro n
  induction n with
  | zero =>
    intro st st1 hP h
    exact (Option.some.inj h) ▸ hP
  | succ n ih =>
    intro st st1 hP h
    unfold Strategy.digLoop at h
    cases he : st.store.empty p with
    | none => rw [he] at h; exact Option.noConfusion h
    | some e =>
      rw [he, optionBindSome] at h
      cases e with
      | true =>
        rw [if_pos rfl] at h
        exact (Option.some.inj h) ▸ hP
      | false =>
        simp only [Bool.false_eq_true, if_false] at h
        cases hl : (st.store.storage.getD p []).getLast? with
        | none => simp only [hl] at h; exact Option.noConfusion h
        | some ctop =>
          simp only [hl] at h
          cases hadj : st.adjacent_stack ctop with
          | none => rw [hadj] at h; exact Option.noConfusion h
          | some p2 =>
            rw [hadj, optionBindSome] at h
            cases hev : st.evaluate_container ctop p2 with
            | none => rw [hev] at h; exact Option.noConfusion h
            | some stA =>
              rw [hev, optionBindSome] at h
              exact ih stA st1 (prim_evaluate hPC st stA ctop p2 hP hev) h

lemma prim_dig_pile {P : Strategy → Prop} {Q : Container → Prop} (hPC : PrimClosed P Q)
    (st st1 : Strategy) (p : Nat) (depth : Int) (hP : P st)
    (h : st.dig_pile p depth = some st1) : P st1 := by
  unfold Strategy.dig_pile at h
  by_cases hc : (0 ≤ depth ∧ p < st.store.width)
  · rw [if_pos hc] at h
    exact prim_digLoop hPC p depth.toNat st st1 hP h
  · rw [if_neg hc] at h
    exact Option.noConfusion h

lemma prim_eqLoop {P : Strategy → Prop} {Q : Container → Prop} (hPC : PrimClosed P Q)
    (big small : Nat) : ∀ (n : Nat) (st st1 : Strategy) (k : Nat), P st →
      Strategy.eqLoop big small n st = some (st1, k) → P st1 := by
  obtain ⟨hL, hS, hM, hA⟩ := hPC
  intro n
  induction n with
  | zero =>
    intro st st1 k hP h
    have h2 : st = st1 := congrArg Prod.fst (Option.some.inj h)
    exact h2 ▸ hP
  | succ n ih =>
    intro st st1 k hP h
    unfold Strategy.eqLoop at h
    cases hb : st.height_column big with
    | none => rw [hb] at h; exact Option.noConfusion h
    | some hbv =>
      rw [hb, optionBindSome] at h
      cases hs : st.height_column small with
      | none => rw [hs] at h; exact Option.noConfusion h
      | some hsv =>
        rw [hs, optionBindSome] at h
        by_cases hge : hbv ≥ hsv
        · rw [if_pos hge] at h
          cases hbr : ((st.store.empty big).bind (fun e =>
              if e then some st
              else
                match (st.store.storage.getD big []).getLast? with
                | some c => st.move_container c small
                | none => none)) with
          | none => rw [hbr] at h; exact Option.noConfusion h
          | some stA =>
            rw [hbr, optionDotBindSome] at h
            have hPA : P stA := by
              cases he : st.store.empty big with
              | none => rw [he] at hbr; exact Option.noConfusion hbr
              | some e =>
                rw [he, optionDotBindSome] at hbr
                cases e with
                | true =>
                  rw [if_pos rfl] at hbr
                  exact (Option.some.inj hbr) ▸ hP
                | false =>
                  simp only [Bool.false_eq_true, if_false] at hbr
                  cases hl : (st.store.storage.getD big []).getLast? with
                  | none => simp only [hl] at hbr; exact Option.noConfusion hbr
                  | some ctop =>
                    simp only [hl] at hbr
                    exact hM st stA ctop small hP hbr
            exact ih stA st1 k hPA h
        · rw [if_neg hge] at h
          have h2 : st = st1 := congrArg Prod.fst (Option.some.inj h)
          exact h2 ▸ hP

lemma prim_equilibrate {P : Strategy → Prop} {Q : Container → Prop} (hPC : PrimClosed P Q)
    (st st1 : Strategy) (rem : Int) (big small : Nat) (k : Int) (hP : P st)
    (h : st.equilibrate_piles rem big small = some (st1, k)) : P st1 := by
  unfold Strategy.equilibrate_piles at h
  by_cases hr : (0 ≤ rem)
  · rw [if_pos hr] at h
    cases heq : Strategy.eqLoop big small rem.toNat st with
    | none => rw [heq] at h; exact Option.noConfusion h
    | some x =>
      rw [heq] at h
      have hx := Option.some.inj h
      have hst1 : st1 = x.1 := (congrArg Prod.fst hx).symm
      rw [hst1]
      exact prim_eqLoop hPC big small rem.toNat st x.1 x.2 hP (by rw [heq])
  · rw [if_neg hr] at h
    exact Option.noConfusion h

lemma prim_idleLoop {P : Strategy → Prop} {Q : Container → Prop} (hPC : PrimClosed P Q) :
    ∀ (fuel : Nat) (st : Strategy) (rem : Int) (st1 : Strategy), P st →
      Strategy.idleLoop fuel st rem = some st1 → P st1 := by
  intro fuel
  induction fuel with
  | zero =>
    intro st rem st1 hP h
    unfold Strategy.idleLoop at h
    by_cases hc : (0 < rem ∧ st.empty_store = false)
    · rw [if_pos hc] at h
      exact Option.noConfusion h
    · rw [if_neg hc] at h
      exact (Option.some.inj h) ▸ hP
  | succ n ih =>
    intro st rem st1 hP h
    unfold Strategy.idleLoop at h
    by_cases hc : (0 < rem ∧ st.empty_store = false)
    · rw [if_pos hc] at h
      cases hbp : st.best_pile rem with
      | none => rw [hbp] at h; exact Option.noConfusion h
      | some best =>
        rw [hbp, optionBindSome] at h
        by_cases hsc : (best.2.1 ≤ 3 / 10)
        · rw [if_pos hsc] at h
          cases hlp : st.least_equilibrated_pile with
          | none => rw [hlp] at h; exact Option.noConfusion h
          | some piles =>
            rw [hlp, optionBindSome] at h
            cases heq : st.equilibrate_piles rem piles.1 piles.2 with
            | none => rw [heq] at h; exact Option.noConfusion h
            | some x =>
              rw [heq, optionBindSome] at h
              have hPA : P x.1 :=
                prim_equilibrate hPC st x.1 rem piles.1 piles.2 x.2 hP (by rw [heq])
              exact ih x.1 x.2 st1 hPA h
        · rw [if_neg hsc] at h
          cases hd : st.dig_pile best.1 rem with
          | none => rw [hd] at h; exact Option.noConfusion h
          | some stA =>
            rw [hd, optionBindSome] at h
            exact ih stA best.2.2 st1 (prim_dig_pile hPC st stA best.1 rem hP hd) h
    · rw [if_neg hc] at h
      exact (Option.some.inj h) ▸ hP

lemma prim_intake {P : Strategy → Prop} {Q : Container → Prop} (hPC : PrimClosed P Q)
    (st st1 : Strategy) (c : Container) (hQ : Q c) (hP : P st)
    (h : st.intakeStep c = some st1) : P st1 := by
  obtain ⟨hL, hS, hM, hA⟩ := hPC
  unfold Strategy.intakeStep at h
  cases hlf : st.least_full_pile c with
  | none => rw [hlf] at h; exact Option.noConfusion h
  | some p1 =>
    rw [hlf, optionBindSome] at h
    cases hca : st.store.can_add c p1 with
    | none => rw [hca] at h; exact Option.noConfusion h
    | some a =>
      rw [hca, optionBindSome] at h
      by_cases hcond : (a = true ∧ st.expired_container c = false ∧ c.delivery.stop > st.time)
      · rw [if_pos hcond] at h
        exact hA st st1 c p1 hP hQ h
      · rw [if_neg hcond] at h
        exact (Option.some.inj h) ▸ hP

lemma prim_exec {P : Strategy → Prop} {Q : Container → Prop} (hPC : PrimClosed P Q)
    (fuel : Nat) (st st1 : Strategy) (c : Container) (hQ : Q c) (hP : P st)
    (h : Strategy.exec fuel st c = some st1) : P st1 := by
  unfold Strategy.exec at h
  cases h1 : st.treat_removables c true with
  | none => rw [h1] at h; exact Option.noConfusion h
  | some stA =>
    rw [h1, optionBindSome] at h
    cases h2 : stA.intakeStep c with
    | none => rw [h2] at h; exact Option.noConfusion h
    | some stB =>
      rw [h2, optionBindSome] at h
      cases h3 : stB.treat_removables c false with
      | none => rw [h3] at h; exact Option.noConfusion h
      | some stC =>
        rw [h3, optionBindSome] at h
        have hPA : P stA := prim_treat hPC st stA c true hP h1
        have hPB : P stB := prim_intake hPC stA stB c hQ hPA h2
        have hPC2 : P stC := prim_treat hPC stB stC c false hPB h3
        exact prim_idleLoop hPC fuel stC (c.arrival.stop - stC.time) st1 hPC2 h

lemma prim_execList {P : Strategy → Prop} {Q : Container → Prop} (hPC : PrimClosed P Q)
    (fuel : Nat) : ∀ (cs : List Container) (st st1 : Strategy),
      (∀ c ∈ cs, Q c) → P st → execList fuel st cs = some st1 → P st1 := by
  intro cs
  induction cs with
  | nil =>
    intro st st1 _ hP h
    exact (Option.some.inj h) ▸ hP
  | cons c rest ih =>
    intro st st1 hQ hP h
    unfold execList at h
    cases h1 : Strategy.exec fuel st c with
    | none => rw [h1] at h; exact Option.noConfusion h
    | some stA =>
      rw [h1, optionDotBindSome] at h
      have hPA : P stA := prim_exec hPC fuel st stA c (hQ c (by simp)) hP h1
      exact ih stA st1 (fun d hd => hQ d (by simp [hd])) hPA h

lemma simInv_primClosed (w : Nat) (cmap : Int → Option Container) :
    PrimClosed (SimInv w cmap) (fun c => cmap c.identifier = some c) :=
  ⟨fun st st1 c hP hexp h => inv_lose w cmap st st1 c hP hexp h,
   fun st st1 c hP h1 h2 h => inv_sell w cmap st st1 c ⟨h1, h2⟩ hP h,
   fun st st1 c p hP h => inv_move w cmap st st1 c p hP h,
   fun st st1 c p hP hQ h => inv_add w cmap st st1 c p hQ hP h⟩

/-- The cash ledger invariant: the store cash is exactly the total value of
the recorded sales, and every recorded sale happened strictly inside the
delivery window of the sold container. -/
def LedgerInv (st : Strategy) : Prop :=
  st.store.cash = salesTotal st.sales ∧ salesAllInWindow st.sales = true

lemma ledger_primClosed : PrimClosed LedgerInv (fun _ => True) := by
  refine ⟨?_, ?_, ?_, ?_⟩
  · intro st st1 c hP hexp h
    obtain ⟨s1, hrm, hst1⟩ := lose_elim st c st1 h
    obtain ⟨-, hcash1, -, -⟩ := store_remove_elim _ _ _ hrm
    subst hst1
    exact ⟨by show s1.cash = _; rw [hcash1]; exact hP.1, hP.2⟩
  · intro st st1 c hP h1 h2 h
    obtain ⟨s1, hrm, hst1⟩ := sell_elim st c st1 h
    obtain ⟨-, hcash1, -, -⟩ := store_remove_elim _ _ _ hrm
    subst hst1
    constructor
    · show s1.cash = salesTotal (st.sales ++ [(c, st.time)])
      rw [hcash1]
      show st.store.cash + c.value = _
      rw [hP.1]
      simp [salesTotal]
    · show salesAllInWindow (st.sales ++ [(c, st.time)]) = true
      have hw := hP.2
      unfold salesAllInWindow at hw ⊢
      rw [List.all_append, hw]
      simp [deliverableAt]
      omega
  · intro st st1 c p hP h
    obtain ⟨s1, hmv, hcm, hst1⟩ := move_elim st c p st1 h
    obtain ⟨-, hcash1, -⟩ := store_move_true_fields _ _ _ _ hcm hmv
    subst hst1
    exact ⟨by show s1.cash = _; rw [hcash1]; exact hP.1, hP.2⟩
  · intro st st1 c p hP _ h
    obtain ⟨s1, had, hst1⟩ := add_elim st c p st1 h
    obtain ⟨hcash1, -, -⟩ := store_add_fields _ _ _ _ had
    subst hst1
    exact ⟨by show s1.cash = _; rw [hcash1]; exact hP.1, hP.2⟩

/-- C3 amended: for every completed run of the expert scheduler (any fuel,
any width, any input container list whose identifiers resolve to their own
containers in the lookup table), replaying the produced event log against
the same width and container table succeeds with zero integrity errors and
rebuilds exactly the final producer store, cash included. The comparison
against a logged CASH amount that the original claim also demands is
impossible: the scheduler never writes CASH records, as
C3_no_cash_logged_cex shows on a concrete completed run. -/
theorem C3_replay_of_completed_run (fuel w : Nat) (inputs : List Container)
    (cmap : Int → Option Container) (st : Strategy)
    (hmap : ∀ c ∈ inputs, cmap c.identifier = some c)
    (hrun : execAll fuel w inputs = some st) :
    (replayList w cmap st.log).map Prod.fst = some st.store := by
  have hInv : SimInv w cmap st :=
    prim_execList (simInv_primClosed w cmap) fuel inputs (Strategy.init w) st hmap
      (inv_init w cmap) hrun
  obtain ⟨⟨last, hrep, -⟩, -, -, -⟩ := hInv
  rw [hrep]
  rfl

/-- C3 witness: the completed one-container run stC1run replays to its own
final store. -/
theorem C3_replay_of_completed_run_witness :
    (replayList 2 cmap1 stC1run.log).map Prod.fst = some stC1run.store :=
  C3_replay_of_completed_run 5 2 [c1] cmap1 stC1run
    (by intro c hc; rw [List.mem_singleton] at hc; subst hc; rfl) rfl

/-- C9: in every completed run of the expert scheduler, the final cash is
exactly the sum of the values of the recorded sales, and every sale
(container d sold at clock t) satisfies d.delivery.start <= t <
d.delivery.end: the scheduler never credits the value of a container whose
delivery window has already closed, and an expired container encountered
for removal is only ever evicted through lose_container, which leaves cash
unchanged and records no sale. -/
theorem C9_no_credit_after_window (fuel w : Nat) (inputs : List Container) (st : Strategy)
    (hrun : execAll fuel w inputs = some st) :
    st.store.cash = salesTotal st.sales ∧ salesAllInWindow st.sales = true :=
  prim_execList ledger_primClosed fuel inputs (Strategy.init w) st
    (fun _ _ => trivial) ⟨rfl, rfl⟩ hrun

/-- C9 witness: the one-container run sells c1 at clock 1, inside its
delivery window, and its final cash 10 is the total of that single sale. -/
theorem C9_no_credit_after_window_witness :
    stC1run.store.cash = salesTotal stC1run.sales ∧
    salesAllInWindow stC1run.sales = true :=
  C9_no_credit_after_window 5 2 [c1] stC1run rfl
